import Mathlib

/-!
Verification of the client-side transfer engine of the `serve` CLI
(`serve-cli/src/download.rs`, `retry.rs`, `cleanup.rs`), as a shallow
embedding in Lean.  u64 arithmetic is modelled as `Nat` with an explicit
`% 2^64` at every operation whose Rust counterpart can wrap in release
builds; `usize` values are modelled as `Nat` (64-bit platform).
-/

namespace ServeSpec

/-- The u64 modulus `2^64`. -/
def U64 : Nat := 2 ^ 64

/-- `RangePart` from `download.rs`: one planned byte range.  The Rust field
`end` is a Lean keyword, so it is named `endIncl` here (it is inclusive). -/
structure RangePart where
  start : Nat
  endIncl : Nat
deriving DecidableEq

/-- The loop body of `build_range_plan` (`download.rs` lines 338-345):
`for index in 0..requested_parts { let start = index as u64 * chunk_size;
if start >= total { break; } let end = (start + chunk_size - 1).min(total - 1);
parts.push(...) }`.  `fuel` is the number of loop iterations left; arithmetic
wraps mod `2^64` as u64 release arithmetic does. -/
def rangePlanGo (total chunk : Nat) : Nat → Nat → List RangePart
  | 0, _ => []
  | fuel + 1, index =>
    let start := index * chunk % U64
    if total ≤ start then []
    else
      { start := start, endIncl := min ((start + chunk + (U64 - 1)) % U64) (total - 1) } ::
        rangePlanGo total chunk fuel (index + 1)

/-- `build_range_plan` from `download.rs` lines 332-347.  `chunk_size` is
`(total + requested_parts as u64 - 1) / requested_parts as u64`, which in
release u64 arithmetic wraps mod `2^64`. -/
def build_range_plan (total p : Nat) : List RangePart :=
  if p = 0 then [] else rangePlanGo total (((total + p - 1) % U64) / p) p 0

/-- Loop body of the spec's RangePlan (spec §3), identical to `rangePlanGo`
but with exact (non-wrapping) natural arithmetic; used to compare the code
against the specification's mathematical description. -/
def specRangePlanGo (total chunk : Nat) : Nat → Nat → List RangePart
  | 0, _ => []
  | fuel + 1, index =>
    let start := index * chunk
    if total ≤ start then []
    else
      { start := start, endIncl := min (start + chunk - 1) (total - 1) } ::
        specRangePlanGo total chunk fuel (index + 1)

/-- The spec's chunk size `C = ceil(T/P)` (spec §3), exact arithmetic. -/
def specChunk (total p : Nat) : Nat := (total + p - 1) / p

/-- The spec's RangePlan (§3): chunk `C = ceil(T/P)`, part `i` spans
`[i*C, min(i*C + C - 1, T-1)]`, parts with `start ≥ T` omitted. -/
def specRangePlan (total p : Nat) : List RangePart :=
  if p = 0 then [] else specRangePlanGo total (specChunk total p) p 0

/-- The part a plan assigns to index `k`, for chunk size `chunk`. -/
def mkPart (total chunk k : Nat) : RangePart :=
  { start := k * chunk, endIncl := min (k * chunk + chunk - 1) (total - 1) }

/-- Number of parts in a plan with chunk size `chunk`: `ceil(total/chunk)`. -/
def planCount (total chunk : Nat) : Nat := (total + chunk - 1) / chunk

/-- Parts are ordered by start (claim C1). -/
def plan_ordered (ps : List RangePart) : Prop :=
  ps.Pairwise (fun a b => a.start < b.start)

/-- Parts are pairwise disjoint (claim C1; with ordering, earlier ends before later starts). -/
def plan_disjoint (ps : List RangePart) : Prop :=
  ps.Pairwise (fun a b => a.endIncl < b.start)

/-- Each part starts right after the previous one ends (claim C1). -/
def plan_contiguous (ps : List RangePart) : Prop :=
  ps.Chain' (fun a b => b.start = a.endIncl + 1)

/-- No part is empty (claim C1). -/
def plan_nonempty_parts (ps : List RangePart) : Prop :=
  ∀ pa ∈ ps, pa.start ≤ pa.endIncl

/-- Every part stays inside `[0, total-1]` (claim C1). -/
def plan_within (total : Nat) (ps : List RangePart) : Prop :=
  ∀ pa ∈ ps, pa.endIncl < total

/-- Every byte of `[0, total-1]` is covered by some part (claim C1). -/
def plan_covers (total : Nat) (ps : List RangePart) : Prop :=
  ∀ b, b < total → ∃ pa ∈ ps, pa.start ≤ b ∧ b ≤ pa.endIncl

/-- The full bundle of claim C1's properties for `build_range_plan total p`:
a non-empty, ordered, pairwise disjoint, contiguous sequence of non-empty
parts covering exactly `[0, total-1]`. -/
def plan_ok (total p : Nat) : Prop :=
  build_range_plan total p ≠ [] ∧
  plan_ordered (build_range_plan total p) ∧
  plan_disjoint (build_range_plan total p) ∧
  plan_contiguous (build_range_plan total p) ∧
  plan_nonempty_parts (build_range_plan total p) ∧
  plan_within total (build_range_plan total p) ∧
  plan_covers total (build_range_plan total p)

/-! ## Retry wrapper (`retry.rs`) -/

/-- `retry_delay` from `retry.rs` lines 36-39:
`let capped = attempt.saturating_sub(1).min(3); Duration::from_secs(1 << capped)`.
The result is the delay in seconds. -/
def retry_delay (attempt : Nat) : Nat := 2 ^ (min (attempt - 1) 3)

/-- Observable trace of one `retry` execution: its returned value, how many
times the closure was invoked, and the sequence of sleep durations (seconds)
in order. -/
structure RetryTrace (ε τ : Type) where
  result : Except ε τ
  calls : Nat
  sleeps : List Nat

/-- The loop of `retry` (`retry.rs` lines 12-31), starting at attempt number
`attempt` with `fuel` further attempts allowed after the current one
(`fuel = attempts - attempt`); the closure is modelled as a function from the
attempt number to that invocation's outcome, and `retryable` models
`is_retryable_error`.  `fuel = 0` is the last attempt: any error is returned
without sleeping. -/
def retryFrom (retryable : ε → Bool) (f : Nat → Except ε τ) (attempt : Nat) :
    Nat → RetryTrace ε τ
  | 0 => { result := f attempt, calls := 1, sleeps := [] }
  | fuel + 1 =>
    match f attempt with
    | .ok v => { result := .ok v, calls := 1, sleeps := [] }
    | .error e =>
      if retryable e then
        let rest := retryFrom retryable f (attempt + 1) fuel
        { result := rest.result, calls := rest.calls + 1,
          sleeps := retry_delay attempt :: rest.sleeps }
      else { result := .error e, calls := 1, sleeps := [] }

/-- `retry` from `retry.rs` lines 7-34: `attempts = max_attempts.max(1)`,
attempts numbered `1..=attempts`. -/
def retry (retryable : ε → Bool) (max_attempts : Nat) (f : Nat → Except ε τ) :
    RetryTrace ε τ :=
  retryFrom retryable f 1 (max max_attempts 1 - 1)

/-! ## Error classification (`retry.rs` lines 41-72) -/

/-- The `std::io::ErrorKind` values distinguished by `is_retryable_error`,
plus representatives of the kinds it ignores. -/
inductive IoKind where
  | timedOut
  | connectionReset
  | connectionAborted
  | brokenPipe
  | unexpectedEof
  | wouldBlock
  | interrupted
  | notFound
  | permissionDenied
  | otherKind
deriving DecidableEq

/-- One cause in an error's causal chain (`err.chain()`): a concrete error
value downcasts to at most one of `reqwest::Error` / `std::io::Error`, so a
cause is one of: a reqwest error (with its transport predicates and optional
response status), an I/O error (with its kind), or anything else. -/
inductive ErrCause where
  | reqwest (isTimeout isConnect isBody : Bool) (status : Option Nat)
  | io (kind : IoKind)
  | otherCause
deriving DecidableEq

/-- The retryable I/O kinds matched at `retry.rs` lines 61-64. -/
def retryableIoKind : IoKind → Bool
  | .timedOut => true
  | .connectionReset => true
  | .connectionAborted => true
  | .brokenPipe => true
  | .unexpectedEof => true
  | .wouldBlock => true
  | .interrupted => true
  | _ => false

/-- `is_retryable_error` from `retry.rs` lines 41-72, over the causal chain:
a reqwest timeout/connect/body error is retryable; a reqwest error carrying a
status is retryable iff the status is 5xx (`is_server_error`), 429
(`TOO_MANY_REQUESTS`) or 408 (`REQUEST_TIMEOUT`), and otherwise terminates
the walk with `false`; a retryable-kind I/O error is retryable; any other
cause is skipped; an exhausted chain is not retryable. -/
def is_retryable_error : List ErrCause → Bool
  | [] => false
  | c :: rest =>
    match c with
    | .reqwest t cn b st =>
      if t || cn || b then true
      else
        match st with
        | some s => if (500 ≤ s ∧ s ≤ 599) ∨ s = 429 ∨ s = 408 then true else false
        | none => is_retryable_error rest
    | .io k => if retryableIoKind k then true else is_retryable_error rest
    | .otherCause => is_retryable_error rest

/-- Classification of a single cause following claim C3's wording:
`some true` = decides retryable, `some false` = decides terminal,
`none` = this cause decides nothing and the walk continues. -/
def classifyCauseSpec : ErrCause → Option Bool
  | .reqwest t cn b st =>
    if t || cn || b then some true
    else
      match st with
      | some s => if (500 ≤ s ∧ s ≤ 599) ∨ s = 408 ∨ s = 429 then some true else some false
      | none => none
  | .io k => if retryableIoKind k then some true else none
  | .otherCause => none

/-! ## Partial download state (`download.rs` lines 1024-1112) -/

/-- `PartProgress` from `download.rs`: the Rust field `end` is named
`endIncl` here. -/
structure PartProgress where
  start : Nat
  endIncl : Nat
  downloaded : Nat
deriving DecidableEq

/-- `PartProgress::len` (`download.rs` 1039-1041):
`end.saturating_sub(start).saturating_add(1)`. -/
def PartProgress.len (pa : PartProgress) : Nat :=
  min (pa.endIncl - pa.start + 1) (U64 - 1)

structure PartialDownloadState where
  total : Option Nat
  part_count : Nat
  parts : List PartProgress
deriving DecidableEq

/-- `PartialDownloadState::rebuild_parts` (`download.rs` 1064-1074). -/
def PartialDownloadState.rebuild_parts (S : PartialDownloadState) (total : Nat) :
    PartialDownloadState :=
  let newParts := (build_range_plan total S.part_count).map
    (fun r => { start := r.start, endIncl := r.endIncl, downloaded := 0 })
  { S with parts := newParts }

/-- `PartialDownloadState::new` (`download.rs` 1045-1062). -/
def PartialDownloadState.new (total : Option Nat) (part_count : Nat) :
    PartialDownloadState :=
  let count := max part_count 1
  match total with
  | some t =>
    PartialDownloadState.rebuild_parts
      { total := some t, part_count := count, parts := [] } t
  | none =>
    { total := none, part_count := count,
      parts := [{ start := 0, endIncl := 0, downloaded := 0 }] }

/-- The per-entry update of `ensure_layout`'s zip loop (`download.rs`
1083-1090): adopt the plan's bounds, clamp `downloaded` to the new length. -/
def clampEntry (e : PartProgress) (r : RangePart) : PartProgress :=
  if PartProgress.len { start := r.start, endIncl := r.endIncl, downloaded := e.downloaded } < e.downloaded
  then { start := r.start, endIncl := r.endIncl, downloaded := PartProgress.len { start := r.start, endIncl := r.endIncl, downloaded := e.downloaded } }
  else { start := r.start, endIncl := r.endIncl, downloaded := e.downloaded }

/-- `PartialDownloadState::ensure_layout` (`download.rs` 1076-1091):
clamp `part_count` to ≥ 1; rebuild from scratch when the number of parts
disagrees, otherwise adopt the plan's bounds entry-wise (`iter_mut().zip`
leaves any surplus entries untouched). -/
def PartialDownloadState.ensure_layout (S : PartialDownloadState) (total : Nat) :
    PartialDownloadState :=
  let pc := max S.part_count 1
  let S1 : PartialDownloadState := { S with part_count := pc }
  if S1.parts.length ≠ pc then S1.rebuild_parts total
  else
    let plan := build_range_plan total pc
    { S1 with parts := (S1.parts.zip plan).map (fun pr => clampEntry pr.1 pr.2) ++
        S1.parts.drop plan.length }

/-- `PartialDownloadState::is_complete` (`download.rs` 1093-1097). -/
def PartialDownloadState.is_complete (S : PartialDownloadState) : Bool :=
  S.parts.all (fun e => e.len ≤ e.downloaded)

/-- `PartialDownloadState::completed_bytes` (`download.rs` 1099-1104). -/
def PartialDownloadState.completed_bytes (S : PartialDownloadState) : Nat :=
  (S.parts.map (fun e => min e.downloaded e.len)).sum

/-- `PartialDownloadState::set_downloaded` (`download.rs` 1106-1111). -/
def PartialDownloadState.set_downloaded (S : PartialDownloadState) (index d : Nat) :
    PartialDownloadState :=
  match S.parts[index]? with
  | none => S
  | some e => { S with parts := S.parts.set index { e with downloaded := min d e.len } }

/-- The per-part invariant of claim C4: `downloaded ≤ len`. -/
def partInv (S : PartialDownloadState) : Prop :=
  ∀ pa ∈ S.parts, pa.downloaded ≤ pa.len

/-- `parts` carries exactly the starts/ends of `plan`. -/
def layoutMatches (parts : List PartProgress) (plan : List RangePart) : Prop :=
  parts.map (fun pa => (pa.start, pa.endIncl)) = plan.map (fun r => (r.start, r.endIncl))

/-! ## Multi-connection resume decision (`download.rs` lines 624-646) -/

/-- What the resume decision slice produces: whether the part-count mismatch
was reported on stderr, the state handed to
`download_with_multiple_connections`, and the connection count used. -/
structure MultiPlanDecision where
  reported : Bool
  state : PartialDownloadState
  workers : Nat

/-- The multi-connection branch of `download_to_single_file` (`download.rs`
624-646): take the persisted state if any (else a fresh one for the
requested part count), report when its `part_count` differs from the
requested count, use `state.part_count.max(1)` connections, set the total,
and `ensure_layout` before downloading. -/
def plan_multi (persisted : Option PartialDownloadState) (total part_count : Nat) :
    MultiPlanDecision :=
  let state0 := persisted.getD (PartialDownloadState.new (some total) part_count)
  let reported := state0.part_count ≠ part_count
  let total_connections := max state0.part_count 1
  let state1 : PartialDownloadState := { state0 with total := some total }
  { reported := reported, state := state1.ensure_layout total, workers := total_connections }

/-! ## Persisted state side-file (`download.rs` lines 958-1022) -/

/-- serde_json documents, restricted to the shapes `PartialDownloadState`
round-trips through. -/
inductive Json where
  | null
  | num (n : Nat)
  | arr (elems : List Json)
  | obj (fields : List (String × Json))

/-- serde `Serialize` for `PartProgress` (derived; fields in declaration
order). -/
def PartProgress.toJson (pa : PartProgress) : Json :=
  .obj [("start", .num pa.start), ("end", .num pa.endIncl),
    ("downloaded", .num pa.downloaded)]

/-- serde `Deserialize` for `PartProgress`: all three fields required,
order-insensitive. -/
def PartProgress.fromJson : Json → Option PartProgress
  | .obj fields =>
    match fields.lookup "start", fields.lookup "end", fields.lookup "downloaded" with
    | some (.num s), some (.num e), some (.num d) =>
      some { start := s, endIncl := e, downloaded := d }
    | _, _, _ => none
  | _ => none

/-- serde seq deserialization of the `parts` array. -/
def decodeParts : List Json → Option (List PartProgress)
  | [] => some []
  | j :: rest =>
    match PartProgress.fromJson j, decodeParts rest with
    | some pa, some l => some (pa :: l)
    | _, _ => none

/-- serde `Serialize` for `PartialDownloadState` (derived): `None` totals
serialize as `null`. -/
def PartialDownloadState.toJson (S : PartialDownloadState) : Json :=
  .obj [("total", match S.total with | some t => .num t | none => .null),
    ("part_count", .num S.part_count),
    ("parts", .arr (S.parts.map PartProgress.toJson))]

/-- serde deserialization of an `Option<u64>` field value. -/
def decodeOptNat : Json → Option (Option Nat)
  | .null => some none
  | .num n => some (some n)
  | _ => none

/-- serde `Deserialize` for `PartialDownloadState`. -/
def PartialDownloadState.fromJson : Json → Option PartialDownloadState
  | .obj fields =>
    match fields.lookup "total", fields.lookup "part_count", fields.lookup "parts" with
    | some jt, some (.num pc), some (.arr js) =>
      match decodeOptNat jt, decodeParts js with
      | some t, some l => some { total := t, part_count := pc, parts := l }
      | _, _ => none
    | _, _, _ => none
  | _ => none

/-- A file system holding parsed state documents: path ↦ document. -/
def JsonFs : Type := String → Option Json

/-- Point update of a path-indexed map. -/
def setMap {α : Type} (m : String → α) (p : String) (v : α) : String → α :=
  fun q => if q = p then v else m q

/-- `partial_state_path` (`download.rs` 1016-1018): for the engine's temp
paths `<dir>/.<name>.tmp`, `with_extension("tmp.state")` appends `.state`. -/
def partial_state_path (temp : String) : String := temp ++ ".state"

/-- `partial_state_tmp_path` (`download.rs` 1020-1022): appends
`.state.tmp`. -/
def partial_state_tmp_path (temp : String) : String := temp ++ ".state.tmp"

/-- `save_partial_state` (`download.rs` 977-1003): serialize, write the
staging side-file, atomically rename it over the canonical side-file. -/
def save_partial_state (fs : JsonFs) (temp : String) (S : PartialDownloadState) : JsonFs :=
  let tmp := partial_state_tmp_path temp
  let path := partial_state_path temp
  let fs1 := setMap fs tmp (some S.toJson)
  setMap (setMap fs1 path (fs1 tmp)) tmp none

/-- `load_partial_state` (`download.rs` 958-975): read and parse the
side-file; on success clamp `part_count` to at least 1. -/
def load_partial_state (fs : JsonFs) (temp : String) : Option PartialDownloadState :=
  match fs (partial_state_path temp) with
  | none => none
  | some doc =>
    match PartialDownloadState.fromJson doc with
    | some S => some { S with part_count := max S.part_count 1 }
    | none => none

/-! ## Finalization (`download.rs` lines 723-750, `cleanup.rs` lines 59-69) -/

/-- State visible to `finalize_temp_file`: file path ↦ size in bytes, plus
the process-wide temp registry (a set of paths). -/
structure SysState where
  files : String → Option Nat
  registry : String → Bool

/-- `clear_partial_state` (`download.rs` 1005-1014): best-effort removal of
both side-files. -/
def clear_partial_state (files : String → Option Nat) (temp : String) :
    String → Option Nat :=
  setMap (setMap files (partial_state_path temp) none) (partial_state_tmp_path temp) none

def isOkB {ε α : Type} : Except ε α → Bool
  | .ok _ => true
  | .error _ => false

def okStateOf (r : Except String (SysState × Nat)) : SysState :=
  match r with
  | .ok (st, _) => st
  | .error _ => { files := fun _ => none, registry := fun _ => false }

def okLenOf (r : Except String (SysState × Nat)) : Nat :=
  match r with
  | .ok (_, n) => n
  | .error _ => 0

/-- `finalize_temp_file` (`download.rs` 723-750) plus `untrack_temp_file`
(`cleanup.rs` 65-69): remove a pre-existing output, rename the temp file
onto the output (failing if the temp file is missing), untrack the temp
path, clear both state side-files, then stat the output and fail on a size
mismatch when the expected total is known.  Returns the final length. -/
def finalize_temp_file (st : SysState) (temp output : String) (total : Option Nat) :
    Except String (SysState × Nat) :=
  let files0 := if (st.files output).isSome then setMap st.files output none else st.files
  match files0 temp with
  | none => .error "failed to move temp file into place"
  | some sz =>
    let files1 := setMap (setMap files0 temp none) output (some sz)
    let reg1 := setMap st.registry temp false
    let files2 := clear_partial_state files1 temp
    match files2 output with
    | none => .error "failed to stat downloaded file"
    | some finalLen =>
      match total with
      | some expected =>
        if finalLen ≠ expected then .error "downloaded file size mismatch"
        else .ok ({ files := files2, registry := reg1 }, finalLen)
      | none => .ok ({ files := files2, registry := reg1 }, finalLen)

/-! ## Probe (`download.rs` lines 247-316) -/

/-- The response headers `probe_file` inspects, as raw header values. -/
structure Headers where
  contentLength : Option String
  acceptRanges : Option String
  contentRange : Option String

structure HttpResponse where
  status : Nat
  headers : Headers

/-- The outcomes of the two requests `probe_file` can make against the
server: the `HEAD` and the fallback `GET` with `Range: bytes=0-0`. -/
structure ProbeClient where
  headResult : Except String HttpResponse
  getRangeResult : Except String HttpResponse

/-- `FileProbe` from `download.rs` 247-250. -/
structure FileProbe where
  length : Option Nat
  accept_ranges : Bool
deriving DecidableEq

/-- `StatusCode::is_success`: `200..=299`. -/
def isSuccessStatus (s : Nat) : Bool := 200 ≤ s ∧ s ≤ 299

/-- `str::parse::<u64>`: ASCII digits, non-empty, within u64 range. -/
def parseU64 (s : String) : Option Nat :=
  let cs := s.toList
  if cs ≠ [] ∧ cs.all (fun c => c.isDigit) then
    let v := cs.foldl (fun acc c => acc * 10 + (c.toNat - Char.toNat '0')) 0
    if v < U64 then some v else none
  else none

def toLowerAscii (c : Char) : Char :=
  if 'A' ≤ c ∧ c ≤ 'Z' then Char.ofNat (c.toNat + 32) else c

/-- `str::eq_ignore_ascii_case`. -/
def eqIgnoreAsciiCase (a b : String) : Bool :=
  a.toList.map toLowerAscii = b.toList.map toLowerAscii

/-- Position of the last occurrence of `ch` (Rust `rfind`). -/
def rfindChar (ch : Char) : List Char → Option Nat
  | [] => none
  | c :: rest =>
    match rfindChar ch rest with
    | some i => some (i + 1)
    | none => if c = ch then some 0 else none

/-- Parse the total from a `Content-Range` value: the digits after the last
`/` (`download.rs` 294-301). -/
def contentRangeTotal (s : String) : Option Nat :=
  match rfindChar '/' s.toList with
  | some pos => parseU64 (String.mk (s.toList.drop (pos + 1)))
  | none => none

/-- The fallback `GET` phase of `probe_file` (`download.rs` 284-315): a
transport failure of `request.send()` is propagated (`?`); otherwise a `206`
marks range support, and the length comes from `Content-Range`'s suffix or,
only when that header is absent, from `Content-Length`. -/
def probeFallbackGet (c : ProbeClient) : Except String FileProbe :=
  match c.getRangeResult with
  | .error e => .error e
  | .ok resp =>
    let accept_ranges := resp.status = 206
    let length :=
      match resp.headers.contentRange with
      | some text => contentRangeTotal text
      | none =>
        match resp.headers.contentLength with
        | some text => parseU64 text
        | none => none
    .ok { length := length, accept_ranges := accept_ranges }

/-- `probe_file` (`download.rs` 252-316): try `HEAD`; on a successful
response read the length from `Content-Length` and range support from
`Accept-Ranges: bytes` (case-insensitive) and return; on a refused or failed
`HEAD`, fall back to the ranged `GET`. -/
def probe_file (c : ProbeClient) : Except String FileProbe :=
  match c.headResult with
  | .ok resp =>
    if isSuccessStatus resp.status then
      let length :=
        match resp.headers.contentLength with
        | some text => parseU64 text
        | none => none
      let accept_ranges :=
        match resp.headers.acceptRanges with
        | some text => eqIgnoreAsciiCase text "bytes"
        | none => false
      .ok { length := length, accept_ranges := accept_ranges }
    else probeFallbackGet c
  | .error _ => probeFallbackGet c

/-- The probe step of `download_file` (`download.rs` line 145):
`let probe = probe_file(client, &url)?;` — the remainder of `download_file`
is abstracted as `rest`. -/
def download_file_probe_step {α : Type} (c : ProbeClient)
    (rest : FileProbe → Except String α) : Except String α :=
  (probe_file c).bind rest

/-- `probe_file` takes the fallback-GET path exactly when the `HEAD` did not
produce a successful response: any `Ok` `HEAD` response has a non-success
status (vacuously true when the `HEAD` transport failed). -/
def headFellBack (c : ProbeClient) : Prop :=
  ∀ resp, c.headResult = .ok resp → isSuccessStatus resp.status = false

/-! ## Duplicate-name resolution (`download.rs` lines 907-956) -/

/-- A path as parent directory plus file name characters (`file_name`);
`[]` models a path without a usable file name. -/
structure FsPath where
  parent : String
  name : List Char
deriving DecidableEq

/-- The stem/extension split of `path_with_suffix` (`download.rs` 930-943):
split at the last `.`; an empty name becomes `download`; an empty stem
(hidden file) keeps the whole name with no extension; a lone trailing dot is
dropped. -/
def stemExt (name : List Char) : List Char × Option (List Char) :=
  if name = [] then ("download".toList, none)
  else
    match rfindChar '.' name with
    | some pos =>
      let stem := name.take pos
      let ext := name.drop pos
      if stem = [] then (name, none)
      else if 1 < ext.length then (stem, some (ext.drop 1))
      else (stem, none)
    | none => (name, none)

/-- Re-attachment of a split-off extension: `.ext`, or nothing. -/
def extSuffix : Option (List Char) → List Char
  | some e => '.' :: e
  | none => []

/-- `path_with_suffix` (`download.rs` 924-956):
`format!("{}-{}", stem, index)` with the `.ext` re-attached. -/
def path_with_suffix (base : FsPath) (index : Nat) : FsPath :=
  let se := stemExt base.name
  let candidate := se.1 ++ '-' :: Nat.toDigits 10 index ++ extSuffix se.2
  { parent := base.parent, name := candidate }

/-- `next_available_path` (`download.rs` 907-922) over an abstract
file-existence predicate `ex`: if `base` does not exist return it, else the
candidate at the first free index `1, 2, …`.  `h` asserts some index is
free, which holds of any real file system and makes the unbounded search
well-defined. -/
def next_available_path (ex : FsPath → Bool) (base : FsPath)
    (h : ∃ n, ex (path_with_suffix base (n + 1)) = false) : FsPath :=
  if ex base then path_with_suffix base (Nat.find h + 1) else base

/-! ## Lemmas about the range planner -/

theorem specGo_eq_nil {total chunk idx : Nat} (h : total ≤ idx * chunk) :
    ∀ fuel, specRangePlanGo total chunk fuel idx = [] := by
  intro fuel
  cases fuel with
  | zero => rfl
  | succ n => simp [specRangePlanGo, h]

theorem lt_planCount_iff {total chunk : Nat} (hc : 1 ≤ chunk) (idx : Nat) :
    idx * chunk < total ↔ idx < planCount total chunk := by
  unfold planCount
  rw [show (idx < (total + chunk - 1) / chunk) ↔ (idx + 1 ≤ (total + chunk - 1) / chunk)
      from Iff.rfl,
    Nat.le_div_iff_mul_le (by omega : 0 < chunk), Nat.add_mul, Nat.one_mul]
  omega

theorem specGo_closed_form {total chunk : Nat} (hc : 1 ≤ chunk) :
    ∀ fuel idx, specRangePlanGo total chunk fuel idx =
      (List.range (min fuel (planCount total chunk - idx))).map
        (fun j => mkPart total chunk (idx + j)) := by
  intro fuel
  induction fuel with
  | zero => intro idx; simp [specRangePlanGo]
  | succ n ih =>
    intro idx
    by_cases h : total ≤ idx * chunk
    · rw [specGo_eq_nil h]
      have hK : planCount total chunk ≤ idx := by
        by_contra hlt
        push_neg at hlt
        have h2 := (lt_planCount_iff hc idx).mpr hlt
        omega
      rw [Nat.sub_eq_zero_of_le hK]
      simp
    · push_neg at h
      have hK : idx < planCount total chunk := (lt_planCount_iff hc idx).mp h
      have hsub : planCount total chunk - idx = (planCount total chunk - idx - 1) + 1 := by omega
      rw [show specRangePlanGo total chunk (n + 1) idx =
        { start := idx * chunk,
          endIncl := min (idx * chunk + chunk - 1) (total - 1) } ::
          specRangePlanGo total chunk n (idx + 1) from by
            simp [specRangePlanGo, Nat.not_le.mpr h]]
      rw [ih (idx + 1), hsub, Nat.succ_min_succ, List.range_succ_eq_map]
      simp only [List.map_cons, List.map_map]
      congr 1
      rw [show planCount total chunk - idx - 1 = planCount total chunk - (idx + 1) from by
        omega]
      apply List.map_congr_left
      intro j _
      show mkPart total chunk (idx + 1 + j) = mkPart total chunk (idx + (j + 1))
      rw [show idx + 1 + j = idx + (j + 1) from by omega]

theorem total_le_p_mul_specChunk {total p : Nat} (hp : 1 ≤ p) :
    total ≤ p * specChunk total p := by
  unfold specChunk
  have hdm := Nat.div_add_mod (total + p - 1) p
  have hmod : (total + p - 1) % p < p := Nat.mod_lt _ (by omega)
  omega

theorem p_mul_specChunk_le (total p : Nat) :
    p * specChunk total p ≤ total + p - 1 := by
  unfold specChunk
  rw [Nat.mul_comm]
  exact Nat.div_mul_le_self _ _

theorem specChunk_pos {total p : Nat} (hp : 1 ≤ p) (ht : 1 ≤ total) :
    1 ≤ specChunk total p := by
  unfold specChunk
  rw [Nat.le_div_iff_mul_le (by omega : 0 < p)]
  omega

theorem planCount_le_p {total p : Nat} (hp : 1 ≤ p) (ht : 1 ≤ total) :
    planCount total (specChunk total p) ≤ p := by
  by_contra hlt
  push_neg at hlt
  have h1 := (lt_planCount_iff (specChunk_pos hp ht) p).mpr hlt
  have h2 := @total_le_p_mul_specChunk total p hp
  omega

/-- Closed form of the spec's range plan: exactly
`planCount total C` parts, the `k`-th being `mkPart total C k`. -/
theorem specRangePlan_closed_form {total p : Nat} (hp : 1 ≤ p) (ht : 1 ≤ total) :
    specRangePlan total p =
      (List.range (planCount total (specChunk total p))).map
        (mkPart total (specChunk total p)) := by
  unfold specRangePlan
  rw [if_neg (by omega)]
  rw [specGo_closed_form (specChunk_pos hp ht) p 0]
  rw [Nat.sub_zero, Nat.min_eq_right (planCount_le_p hp ht)]
  apply List.map_congr_left
  intro j _
  simp

/-- Under no-u64-overflow conditions the code's `build_range_plan` computes
exactly the spec's mathematical RangePlan. -/
theorem build_range_plan_eq_spec {total p : Nat} (hp : 1 ≤ p) (hov : total + p ≤ U64) :
    build_range_plan total p = specRangePlan total p := by
  unfold build_range_plan specRangePlan
  rw [if_neg (by omega), if_neg (by omega)]
  have hmod : (total + p - 1) % U64 = total + p - 1 :=
    Nat.mod_eq_of_lt (by unfold U64 at hov ⊢; omega)
  rw [hmod]
  show rangePlanGo total (specChunk total p) p 0 = specRangePlanGo total (specChunk total p) p 0
  rcases Nat.eq_zero_or_pos total with ht | ht
  · subst ht
    rw [specGo_eq_nil (by omega)]
    cases p with
    | zero => rfl
    | succ n => simp [rangePlanGo]
  · have hc : 1 ≤ specChunk total p := specChunk_pos hp ht
    have hmul : p * specChunk total p ≤ total + p - 1 := p_mul_specChunk_le total p
    have key : ∀ fuel idx, idx + fuel ≤ p →
        rangePlanGo total (specChunk total p) fuel idx =
          specRangePlanGo total (specChunk total p) fuel idx := by
      intro fuel
      induction fuel with
      | zero => intro idx _; rfl
      | succ n ih =>
        intro idx hidx
        have hstart : idx * specChunk total p < U64 := by
          have h1 : idx * specChunk total p ≤ p * specChunk total p :=
            Nat.mul_le_mul_right _ (by omega)
          unfold U64 at hov ⊢
          omega
        have hstart_mod : idx * specChunk total p % U64 = idx * specChunk total p :=
          Nat.mod_eq_of_lt hstart
        show (if total ≤ idx * specChunk total p % U64 then _ else _) =
          (if total ≤ idx * specChunk total p then _ else _)
        rw [hstart_mod]
        by_cases hg : total ≤ idx * specChunk total p
        · simp [hg]
        · rw [if_neg hg, if_neg hg]
          have hend : (idx * specChunk total p + specChunk total p + (U64 - 1)) % U64 =
              idx * specChunk total p + specChunk total p - 1 := by
            have h1 : idx * specChunk total p + specChunk total p ≤ p * specChunk total p := by
              have : (idx + 1) * specChunk total p ≤ p * specChunk total p :=
                Nat.mul_le_mul_right _ (by omega)
              rw [Nat.add_mul, Nat.one_mul] at this
              exact this
            have h2 : idx * specChunk total p + specChunk total p + (U64 - 1) =
                (idx * specChunk total p + specChunk total p - 1) + U64 := by
              unfold U64 at hov ⊢
              omega
            rw [h2, Nat.add_mod_right]
            apply Nat.mod_eq_of_lt
            unfold U64 at hov ⊢
            omega
          rw [hend, ih (idx + 1) (by omega)]

    exact key p 0 (by omega)

theorem idx_mul_lt_of_lt_planCount {total chunk i : Nat} (hc : 1 ≤ chunk)
    (h : i < planCount total chunk) : i * chunk < total :=
  (lt_planCount_iff hc i).mpr h

theorem spec_plan_ne_nil {total p : Nat} (hp : 1 ≤ p) (ht : 1 ≤ total) :
    specRangePlan total p ≠ [] := by
  have hc := specChunk_pos hp ht
  rw [specRangePlan_closed_form hp ht]
  have hK : 0 < planCount total (specChunk total p) := by
    have := (lt_planCount_iff hc 0).mp (by simpa using ht)
    omega
  simp [List.map_eq_nil_iff, List.range_eq_nil]
  omega

theorem spec_plan_ordered {total p : Nat} (hp : 1 ≤ p) (ht : 1 ≤ total) :
    plan_ordered (specRangePlan total p) := by
  have hc := specChunk_pos hp ht
  rw [specRangePlan_closed_form hp ht, plan_ordered, List.pairwise_iff_getElem]
  intro i j hi hj hij
  simp only [List.getElem_map, List.getElem_range, List.length_map, List.length_range] at *
  exact Nat.mul_lt_mul_of_lt_of_le hij (Nat.le_refl _) (by omega)

theorem spec_plan_disjoint {total p : Nat} (hp : 1 ≤ p) (ht : 1 ≤ total) :
    plan_disjoint (specRangePlan total p) := by
  have hc := specChunk_pos hp ht
  rw [specRangePlan_closed_form hp ht, plan_disjoint, List.pairwise_iff_getElem]
  intro i j hi hj hij
  simp only [List.getElem_map, List.getElem_range, List.length_map, List.length_range] at *
  show min (i * specChunk total p + specChunk total p - 1) (total - 1) < j * specChunk total p
  have h1 : (i + 1) * specChunk total p ≤ j * specChunk total p :=
    Nat.mul_le_mul_right _ (by omega)
  rw [Nat.add_mul, Nat.one_mul] at h1
  omega

theorem spec_plan_contiguous {total p : Nat} (hp : 1 ≤ p) (ht : 1 ≤ total) :
    plan_contiguous (specRangePlan total p) := by
  have hc := specChunk_pos hp ht
  rw [specRangePlan_closed_form hp ht, plan_contiguous, List.chain'_iff_get]
  intro i hlen
  simp only [List.length_map, List.length_range] at hlen
  simp only [List.get_eq_getElem, List.getElem_map, List.getElem_range]
  show (i + 1) * specChunk total p =
    min (i * specChunk total p + specChunk total p - 1) (total - 1) + 1
  have hlt : (i + 1) * specChunk total p < total :=
    idx_mul_lt_of_lt_planCount hc (by omega)
  rw [Nat.add_mul, Nat.one_mul] at hlt ⊢
  omega

theorem spec_plan_nonempty_parts {total p : Nat} (hp : 1 ≤ p) (ht : 1 ≤ total) :
    plan_nonempty_parts (specRangePlan total p) := by
  have hc := specChunk_pos hp ht
  rw [specRangePlan_closed_form hp ht]
  intro pa hpa
  obtain ⟨i, hi, rfl⟩ := List.mem_map.mp hpa
  have hiK := List.mem_range.mp hi
  have hlt : i * specChunk total p < total := idx_mul_lt_of_lt_planCount hc hiK
  show i * specChunk total p ≤ min (i * specChunk total p + specChunk total p - 1) (total - 1)
  omega

theorem spec_plan_within {total p : Nat} (hp : 1 ≤ p) (ht : 1 ≤ total) :
    plan_within total (specRangePlan total p) := by
  have hc := specChunk_pos hp ht
  rw [specRangePlan_closed_form hp ht]
  intro pa hpa
  obtain ⟨i, hi, rfl⟩ := List.mem_map.mp hpa
  show min (i * specChunk total p + specChunk total p - 1) (total - 1) < total
  omega

theorem spec_plan_covers {total p : Nat} (hp : 1 ≤ p) (ht : 1 ≤ total) :
    plan_covers total (specRangePlan total p) := by
  have hc := specChunk_pos hp ht
  rw [specRangePlan_closed_form hp ht]
  intro b hb
  have hdm := Nat.div_add_mod b (specChunk total p)
  have hmod : b % specChunk total p < specChunk total p := Nat.mod_lt _ (by omega)
  have hcomm : specChunk total p * (b / specChunk total p) =
      (b / specChunk total p) * specChunk total p := Nat.mul_comm _ _
  rw [hcomm] at hdm
  have hstart : b / specChunk total p * specChunk total p ≤ b := by omega
  have hiK : b / specChunk total p < planCount total (specChunk total p) :=
    (lt_planCount_iff hc _).mp (by omega)
  refine ⟨mkPart total (specChunk total p) (b / specChunk total p),
    List.mem_map_of_mem _ (List.mem_range.mpr hiK), ?_, ?_⟩
  · exact hstart
  · show b ≤ min (b / specChunk total p * specChunk total p + specChunk total p - 1) (total - 1)
    omega

/-- Claim C1 counterexample: at `total = 2^64 - 1`, `parts = 2`, the Rust
expression `total + requested_parts as u64 - 1` wraps around u64, the chunk
size collapses to `0`, and the plan is two identical overlapping parts — the
claimed ordering/disjointness/contiguity/coverage bundle fails. -/
theorem build_range_plan_overflow_counterexample : ¬ plan_ok (U64 - 1) 2 := by
  intro h
  have hplan : build_range_plan (U64 - 1) 2 =
      [{ start := 0, endIncl := U64 - 2 }, { start := 0, endIncl := U64 - 2 }] := by decide
  have hord := h.2.1
  rw [plan_ordered, hplan] at hord
  have hrel := (List.pairwise_cons.mp hord).1 _ (List.mem_singleton.mpr rfl)
  simp at hrel

/-- Claim C1 (amended): provided the ceiling computation `total + P - 1`
does not overflow u64 (`total + P ≤ 2^64`), for every `total > 0` and
`P ≥ 1`, `build_range_plan` returns a non-empty, start-ordered, pairwise
disjoint, contiguous plan of non-empty parts covering exactly
`[0, total-1]`; `P = 0` yields `[]`; and `P > total` collapses to `total`
single-byte parts. -/
theorem build_range_plan_correct (total p : Nat) (ht : 0 < total) (hp : 1 ≤ p)
    (hov : total + p ≤ U64) :
    plan_ok total p ∧
    build_range_plan total 0 = [] ∧
    (total < p →
      build_range_plan total p = (List.range total).map (fun i => { start := i, endIncl := i })) := by
  have heq := build_range_plan_eq_spec hp hov
  refine ⟨⟨?_, ?_, ?_, ?_, ?_, ?_, ?_⟩, rfl, ?_⟩
  · rw [heq]; exact spec_plan_ne_nil hp ht
  · rw [heq]; exact spec_plan_ordered hp ht
  · rw [heq]; exact spec_plan_disjoint hp ht
  · rw [heq]; exact spec_plan_contiguous hp ht
  · rw [heq]; exact spec_plan_nonempty_parts hp ht
  · rw [heq]; exact spec_plan_within hp ht
  · rw [heq]; exact spec_plan_covers hp ht
  · intro htp
    rw [heq]
    have hchunk : specChunk total p = 1 := by
      unfold specChunk
      exact Nat.div_eq_of_lt_le (by omega) (by omega)
    have hcount : planCount total 1 = total := by
      unfold planCount
      omega
    rw [specRangePlan_closed_form hp ht, hchunk, hcount]
    apply List.map_congr_left
    intro i hi
    have hilt := List.mem_range.mp hi
    unfold mkPart
    simp
    omega

/-- Witness for `build_range_plan_correct` at `total = 10`, `P = 3`. -/
theorem build_range_plan_correct_witness :
    plan_ok 10 3 ∧
    build_range_plan 10 0 = [] ∧
    (10 < 3 →
      build_range_plan 10 3 = (List.range 10).map (fun i => { start := i, endIncl := i })) :=
  build_range_plan_correct 10 3 (by decide) (by decide) (by decide)

/-! ## Lemmas about the retry wrapper -/

theorem retry_delay_formula (j : Nat) : retry_delay (j + 1) = min (2 ^ j) 8 := by
  unfold retry_delay
  rw [Nat.add_sub_cancel]
  rcases Nat.le_total j 3 with h | h
  · rw [Nat.min_eq_left h, Nat.min_eq_left]
    calc 2 ^ j ≤ 2 ^ 3 := Nat.pow_le_pow_right (by omega) h
    _ = 8 := by norm_num
  · rw [Nat.min_eq_right h, Nat.min_eq_right]
    · norm_num
    · calc (8 : Nat) = 2 ^ 3 := by norm_num
      _ ≤ 2 ^ j := Nat.pow_le_pow_right (by omega) h

theorem retryFrom_succ_ok {ε τ : Type} {r : ε → Bool} {f : Nat → Except ε τ}
    {attempt n : Nat} {v : τ} (hf : f attempt = .ok v) :
    retryFrom r f attempt (n + 1) = { result := .ok v, calls := 1, sleeps := [] } := by
  unfold retryFrom
  rw [hf]

theorem retryFrom_succ_retryable {ε τ : Type} {r : ε → Bool} {f : Nat → Except ε τ}
    {attempt n : Nat} {e : ε} (hf : f attempt = .error e) (hr : r e = true) :
    retryFrom r f attempt (n + 1) =
      { result := (retryFrom r f (attempt + 1) n).result,
        calls := (retryFrom r f (attempt + 1) n).calls + 1,
        sleeps := retry_delay attempt :: (retryFrom r f (attempt + 1) n).sleeps } := by
  rw [retryFrom, hf]
  simp [hr]

theorem retryFrom_succ_fatal {ε τ : Type} {r : ε → Bool} {f : Nat → Except ε τ}
    {attempt n : Nat} {e : ε} (hf : f attempt = .error e) (hr : r e = false) :
    retryFrom r f attempt (n + 1) = { result := .error e, calls := 1, sleeps := [] } := by
  unfold retryFrom
  rw [hf]
  simp [hr]

theorem retryFrom_spec {ε τ : Type} (r : ε → Bool) (f : Nat → Except ε τ) :
    ∀ fuel attempt,
      1 ≤ (retryFrom r f attempt fuel).calls ∧
      (retryFrom r f attempt fuel).calls ≤ fuel + 1 ∧
      (retryFrom r f attempt fuel).result =
        f (attempt + (retryFrom r f attempt fuel).calls - 1) ∧
      (retryFrom r f attempt fuel).sleeps =
        (List.range ((retryFrom r f attempt fuel).calls - 1)).map
          (fun j => retry_delay (attempt + j)) ∧
      (∀ j, j < (retryFrom r f attempt fuel).calls - 1 →
        ∃ e, f (attempt + j) = .error e ∧ r e = true) ∧
      (∀ e, (retryFrom r f attempt fuel).result = .error e →
        r e = false ∨ (retryFrom r f attempt fuel).calls = fuel + 1) := by
  intro fuel
  induction fuel with
  | zero =>
    intro attempt
    refine ⟨Nat.le_refl _, Nat.le_refl _, ?_, ?_, ?_, ?_⟩
    · show f attempt = f (attempt + 1 - 1)
      rw [Nat.add_sub_cancel]
    · show ([] : List Nat) = (List.range (1 - 1)).map fun j => retry_delay (attempt + j)
      simp
    · intro j hj
      exact absurd (show j < 0 from hj) (by omega)
    · intro e _
      exact Or.inr rfl
  | succ n ih =>
    intro attempt
    cases hf : f attempt with
    | ok v =>
      rw [retryFrom_succ_ok hf]
      refine ⟨Nat.le_refl _, Nat.succ_le_succ (Nat.zero_le _), ?_, ?_, ?_, ?_⟩
      · show Except.ok v = f (attempt + 1 - 1)
        rw [Nat.add_sub_cancel, hf]
      · show ([] : List Nat) = (List.range (1 - 1)).map fun j => retry_delay (attempt + j)
        simp
      · intro j hj
        exact absurd (show j < 0 from hj) (by omega)
      · intro e he
        exact absurd he (by simp)
    | error e =>
      cases hr : r e with
      | true =>
        rw [retryFrom_succ_retryable hf hr]
        obtain ⟨ih1, ih2, ih3, ih4, ih5, ih6⟩ := ih (attempt + 1)
        refine ⟨by show 1 ≤ _ + 1; omega, by show _ + 1 ≤ n + 1 + 1; omega, ?_, ?_, ?_, ?_⟩
        · show (retryFrom r f (attempt + 1) n).result =
            f (attempt + ((retryFrom r f (attempt + 1) n).calls + 1) - 1)
          rw [ih3]
          congr 1
          omega
        · show retry_delay attempt :: (retryFrom r f (attempt + 1) n).sleeps =
            (List.range ((retryFrom r f (attempt + 1) n).calls + 1 - 1)).map
              (fun j => retry_delay (attempt + j))
          rw [ih4, Nat.add_sub_cancel,
            show (retryFrom r f (attempt + 1) n).calls =
              ((retryFrom r f (attempt + 1) n).calls - 1) + 1 from by omega,
            List.range_succ_eq_map]
          simp only [List.map_cons, List.map_map]
          congr 1
          apply List.map_congr_left
          intro j _
          show retry_delay (attempt + 1 + j) = retry_delay (attempt + (j + 1))
          congr 1
          omega
        · intro j hj
          have hj2 : j < (retryFrom r f (attempt + 1) n).calls := by
            exact lt_of_lt_of_le hj (by show _ + 1 - 1 ≤ _; omega)
          cases j with
          | zero => exact ⟨e, hf, hr⟩
          | succ k =>
            obtain ⟨e2, he2, hre2⟩ := ih5 k (by omega)
            refine ⟨e2, ?_, hre2⟩
            rw [show attempt + (k + 1) = attempt + 1 + k from by omega]
            exact he2
        · intro e2 he2
          rcases ih6 e2 he2 with h | h
          · exact Or.inl h
          · refine Or.inr ?_
            show _ + 1 = n + 1 + 1
            omega
      | false =>
        rw [retryFrom_succ_fatal hf hr]
        refine ⟨Nat.le_refl _, Nat.succ_le_succ (Nat.zero_le _), ?_, ?_, ?_, ?_⟩
        · show Except.error e = f (attempt + 1 - 1)
          rw [Nat.add_sub_cancel, hf]
        · show ([] : List Nat) = (List.range (1 - 1)).map fun j => retry_delay (attempt + j)
          simp
        · intro j hj
          exact absurd (show j < 0 from hj) (by omega)
        · intro e2 he2
          have he2e : e = e2 := by
            injection he2
          exact Or.inl (he2e ▸ hr)

/-- Claim C2: `retry(op, N, f)` invokes `f` at most `max(1, N)` times, in
order `1, 2, …`; the value returned is the outcome of the last invocation
(hence the first `Ok` is returned immediately); every earlier invocation
failed with a retryable error; it sleeps exactly `min(2^(attempt-1), 8)`
seconds after each retryable failure that is not the last attempt (delay
sequence `1, 2, 4, 8, 8, …`) and never after the last attempt; and an error
is returned only when it is non-retryable or attempts are exhausted. -/
theorem retry_spec (ε τ : Type) (N : Nat) (f : Nat → Except ε τ) (r : ε → Bool) :
    1 ≤ (retry r N f).calls ∧
    (retry r N f).calls ≤ max 1 N ∧
    (retry r N f).result = f (retry r N f).calls ∧
    (retry r N f).sleeps =
      (List.range ((retry r N f).calls - 1)).map (fun j => min (2 ^ j) 8) ∧
    (∀ k, 1 ≤ k → k < (retry r N f).calls → ∃ e, f k = .error e ∧ r e = true) ∧
    (∀ e, (retry r N f).result = .error e →
      r e = false ∨ (retry r N f).calls = max 1 N) := by
  obtain ⟨h1, h2, h3, h4, h5, h6⟩ := retryFrom_spec r f (max N 1 - 1) 1
  unfold retry
  refine ⟨h1, by omega, ?_, ?_, ?_, ?_⟩
  · rw [h3]
    congr 1
    omega
  · rw [h4]
    apply List.map_congr_left
    intro j _
    rw [show (1 : Nat) + j = j + 1 from by omega]
    exact retry_delay_formula j
  · intro k hk1 hk2
    obtain ⟨e, he, hre⟩ := h5 (k - 1) (by omega)
    refine ⟨e, ?_, hre⟩
    rw [show k = 1 + (k - 1) from by omega]
    exact he
  · intro e he
    rcases h6 e he with h | h
    · exact Or.inl h
    · exact Or.inr (by omega)

/-- Witness for `retry_spec` at `N = 3` with a function failing retryably
on the first attempt and succeeding on the second. -/
theorem retry_spec_witness :
    1 ≤ (retry (fun e => e) 3 (fun k => if k = 1 then .error true else .ok k)).calls :=
  (retry_spec Bool Nat 3 (fun k => if k = 1 then .error true else .ok k) (fun e => e)).1

/-! ## Claim C3: error classification -/

/-- Claim C3: `is_retryable_error` returns retryable exactly when the first
cause of the chain that decides anything decides "retryable": (a) a reqwest
timeout/connect/body-read error, or (b) a reqwest error with status 5xx, 408
or 429 (any other explicit status is terminal, stopping the walk), or (c) an
I/O error of a retryable kind; a chain in which no cause decides is
terminal. -/
theorem is_retryable_error_spec (chain : List ErrCause) :
    is_retryable_error chain = (chain.findSome? classifyCauseSpec).getD false := by
  induction chain with
  | nil => rfl
  | cons c rest ih =>
    cases c with
    | reqwest t cn b st =>
      cases htcb : (t || cn || b) with
      | true =>
        simp [is_retryable_error, classifyCauseSpec, List.findSome?_cons, htcb]
      | false =>
        cases st with
        | none =>
          simp only [is_retryable_error, classifyCauseSpec, List.findSome?_cons, htcb,
            if_false, Bool.false_eq_true]
          exact ih
        | some s =>
          by_cases hs : (500 ≤ s ∧ s ≤ 599) ∨ s = 429 ∨ s = 408
          · have hs2 : (500 ≤ s ∧ s ≤ 599) ∨ s = 408 ∨ s = 429 := by tauto
            simp [is_retryable_error, classifyCauseSpec, List.findSome?_cons, htcb, hs, hs2]
          · have hs2 : ¬ ((500 ≤ s ∧ s ≤ 599) ∨ s = 408 ∨ s = 429) := by tauto
            simp [is_retryable_error, classifyCauseSpec, List.findSome?_cons, htcb, hs, hs2]
    | io k =>
      cases hk : retryableIoKind k with
      | true => simp [is_retryable_error, classifyCauseSpec, List.findSome?_cons, hk]
      | false =>
        simp only [is_retryable_error, classifyCauseSpec, List.findSome?_cons, hk,
          if_false, Bool.false_eq_true]
        exact ih
    | otherCause =>
      simp only [is_retryable_error, classifyCauseSpec, List.findSome?_cons]
      exact ih

/-! ## Claim C4: state invariants -/

theorem specGo_sum {total chunk : Nat} (hc : 1 ≤ chunk) (hU : total < U64) :
    ∀ fuel idx, total ≤ (idx + fuel) * chunk → idx * chunk ≤ total →
      ((specRangePlanGo total chunk fuel idx).map
        (fun r => min (r.endIncl - r.start + 1) (U64 - 1))).sum = total - idx * chunk := by
  intro fuel
  induction fuel with
  | zero =>
    intro idx hup hlo
    rw [Nat.add_zero] at hup
    rw [specGo_eq_nil (by omega)]
    simp
    omega
  | succ n ih =>
    intro idx hup hlo
    by_cases h : total ≤ idx * chunk
    · rw [specGo_eq_nil h]
      simp
      omega
    · push_neg at h
      rw [show specRangePlanGo total chunk (n + 1) idx =
        { start := idx * chunk,
          endIncl := min (idx * chunk + chunk - 1) (total - 1) } ::
          specRangePlanGo total chunk n (idx + 1) from by
            simp [specRangePlanGo, Nat.not_le.mpr h]]
      rw [List.map_cons, List.sum_cons]
      have hexp : (idx + 1) * chunk = idx * chunk + chunk := by
        rw [Nat.add_mul, Nat.one_mul]
      by_cases h2 : idx * chunk + chunk ≤ total
      · have htail := ih (idx + 1)
          (by rw [show idx + 1 + n = idx + (n + 1) from by omega]; exact hup)
          (by rw [hexp]; exact h2)
        rw [hexp] at htail
        rw [htail]
        show min (min (idx * chunk + chunk - 1) (total - 1) - idx * chunk + 1) (U64 - 1) +
          (total - (idx * chunk + chunk)) = total - idx * chunk
        have hU64 : 8 ≤ U64 := by unfold U64; norm_num
        omega
      · push_neg at h2
        rw [specGo_eq_nil (by rw [hexp]; omega)]
        show min (min (idx * chunk + chunk - 1) (total - 1) - idx * chunk + 1) (U64 - 1) +
          (List.map (fun r : RangePart => min (r.endIncl - r.start + 1) (U64 - 1)) []).sum =
          total - idx * chunk
        simp only [List.map_nil, List.sum_nil]
        have hU64 : 8 ≤ U64 := by unfold U64; norm_num
        omega

theorem spec_plan_sum {total p : Nat} (hp : 1 ≤ p) (hU : total < U64) :
    ((specRangePlan total p).map
      (fun r => min (r.endIncl - r.start + 1) (U64 - 1))).sum = total := by
  rcases Nat.eq_zero_or_pos total with ht | ht
  · subst ht
    rw [specRangePlan, if_neg (by omega), specGo_eq_nil (by omega)]
    rfl
  · have hc := specChunk_pos hp ht
    have hmul := @total_le_p_mul_specChunk total p hp
    rw [specRangePlan, if_neg (by omega)]
    have hsum := specGo_sum hc hU p 0
      (by rw [Nat.zero_add]; exact hmul) (by simp)
    simpa using hsum

theorem sumLen_of_layout {parts : List PartProgress} {plan : List RangePart}
    (h : layoutMatches parts plan) :
    (parts.map PartProgress.len).sum =
      (plan.map (fun r => min (r.endIncl - r.start + 1) (U64 - 1))).sum := by
  have h2 := congrArg
    (List.map (fun pr : Nat × Nat => min (pr.2 - pr.1 + 1) (U64 - 1))) h
  rw [List.map_map, List.map_map] at h2
  have h3 : parts.map PartProgress.len =
      plan.map (fun r => min (r.endIncl - r.start + 1) (U64 - 1)) := h2
  rw [h3]

theorem map_sum_eq_of_pointwise_le {α : Type} {f g : α → Nat} :
    ∀ (l : List α), (∀ x ∈ l, f x ≤ g x) →
      (l.map f).sum = (l.map g).sum → ∀ x ∈ l, f x = g x := by
  intro l
  induction l with
  | nil => intro _ _ x hx; exact absurd hx (by simp)
  | cons a rest ih =>
    intro hle hsum x hx
    have hsum_le : (rest.map f).sum ≤ (rest.map g).sum :=
      List.sum_le_sum (fun y hy => hle y (List.mem_cons_of_mem _ hy))
    have ha : f a ≤ g a := hle a (List.mem_cons_self _ _)
    rw [List.map_cons, List.map_cons, List.sum_cons, List.sum_cons] at hsum
    have hha : f a = g a := by omega
    have htail : (rest.map f).sum = (rest.map g).sum := by omega
    rcases List.mem_cons.mp hx with rfl | hx2
    · exact hha
    · exact ih (fun y hy => hle y (List.mem_cons_of_mem _ hy)) htail x hx2

theorem partInv_rebuild (S : PartialDownloadState) (t : Nat) :
    partInv (S.rebuild_parts t) := by
  intro pa hpa
  unfold PartialDownloadState.rebuild_parts at hpa
  simp only at hpa
  obtain ⟨r, _, rfl⟩ := List.mem_map.mp hpa
  exact Nat.zero_le _

theorem partInv_new (t : Option Nat) (pc : Nat) :
    partInv (PartialDownloadState.new t pc) := by
  cases t with
  | some v => exact partInv_rebuild _ _
  | none =>
    intro pa hpa
    simp only [PartialDownloadState.new, List.mem_singleton] at hpa
    subst hpa
    show (0 : Nat) ≤ _
    exact Nat.zero_le _

theorem clampEntry_inv (e : PartProgress) (r : RangePart) :
    (clampEntry e r).downloaded ≤ (clampEntry e r).len := by
  unfold clampEntry
  split
  · exact Nat.le_refl _
  · next h => exact Nat.le_of_not_lt h

theorem partInv_ensure_layout (S : PartialDownloadState) (t : Nat)
    (hS : partInv S) : partInv (S.ensure_layout t) := by
  unfold PartialDownloadState.ensure_layout
  by_cases h : S.parts.length ≠ max S.part_count 1
  · rw [if_pos h]
    exact partInv_rebuild _ _
  · rw [if_neg h]
    intro pa hpa
    simp only at hpa
    rcases List.mem_append.mp hpa with hin | hdrop
    · obtain ⟨pr, _, rfl⟩ := List.mem_map.mp hin
      exact clampEntry_inv pr.1 pr.2
    · exact hS pa (List.mem_of_mem_drop hdrop)

theorem partInv_set_downloaded (S : PartialDownloadState) (i d : Nat)
    (hS : partInv S) : partInv (S.set_downloaded i d) := by
  unfold PartialDownloadState.set_downloaded
  cases hidx : S.parts[i]? with
  | none => exact hS
  | some e =>
    intro pa hpa
    simp only at hpa
    rcases List.mem_or_eq_of_mem_set hpa with hin | rfl
    · exact hS pa hin
    · show min d e.len ≤ PartProgress.len { e with downloaded := min d e.len }
      have : PartProgress.len { e with downloaded := min d e.len } = e.len := rfl
      rw [this]
      exact Nat.min_le_right _ _

/-- Claim C4: for a state whose total is known (and in u64 range), whose
`part_count ≥ 1` (data-model invariant), and whose parts carry the canonical
RangePlan layout for `(total, part_count)`: completed bytes never exceed the
total; the download is complete iff the completed bytes equal the total; and
every mutating operation establishes or preserves the per-part invariant
`downloaded ≤ len`. -/
theorem partial_state_invariants (S : PartialDownloadState) (total : Nat)
    (htot : S.total = some total) (hU : total < U64) (hpc : 1 ≤ S.part_count)
    (hlay : layoutMatches S.parts (specRangePlan total S.part_count)) :
    S.completed_bytes ≤ total ∧
    (S.is_complete = true ↔ S.completed_bytes = total) ∧
    (∀ t pc, partInv (PartialDownloadState.new t pc)) ∧
    (∀ S2 t, partInv (PartialDownloadState.rebuild_parts S2 t)) ∧
    (∀ S2 t, partInv S2 → partInv (PartialDownloadState.ensure_layout S2 t)) ∧
    (∀ S2 i d, partInv S2 → partInv (PartialDownloadState.set_downloaded S2 i d)) := by
  have hsumlen : (S.parts.map PartProgress.len).sum = total := by
    rw [sumLen_of_layout hlay]
    exact spec_plan_sum hpc hU
  have hle : ∀ pa ∈ S.parts, min pa.downloaded pa.len ≤ pa.len :=
    fun pa _ => Nat.min_le_right _ _
  have hcble : S.completed_bytes ≤ total := by
    unfold PartialDownloadState.completed_bytes
    calc (S.parts.map (fun e => min e.downloaded e.len)).sum
        ≤ (S.parts.map PartProgress.len).sum := List.sum_le_sum hle
      _ = total := hsumlen
  refine ⟨hcble, ⟨?_, ?_⟩, partInv_new, partInv_rebuild, partInv_ensure_layout,
    partInv_set_downloaded⟩
  · intro hcomp
    have hall := List.all_eq_true.mp hcomp
    unfold PartialDownloadState.completed_bytes
    rw [← hsumlen]
    apply congrArg
    apply List.map_congr_left
    intro e he
    have := of_decide_eq_true (hall e he)
    exact Nat.min_eq_right this
  · intro hsum
    apply List.all_eq_true.mpr
    intro e he
    apply decide_eq_true
    unfold PartialDownloadState.completed_bytes at hsum
    have hpt := map_sum_eq_of_pointwise_le S.parts hle (by rw [hsum, hsumlen]) e he
    have : min e.downloaded e.len ≤ e.downloaded := Nat.min_le_left _ _
    omega

/-- Witness for `partial_state_invariants` at a canonical 2-part state for
`total = 10`. -/
theorem partial_state_invariants_witness :
    (PartialDownloadState.mk (some 10) 2
      [⟨0, 4, 3⟩, ⟨5, 9, 2⟩]).completed_bytes ≤ 10 :=
  (partial_state_invariants ⟨some 10, 2, [⟨0, 4, 3⟩, ⟨5, 9, 2⟩]⟩ 10 rfl
    (by decide) (by decide) (by unfold layoutMatches; decide)).1

/-! ## Claim C5: save/load round trip -/

theorem partProgress_fromJson_toJson (pa : PartProgress) :
    PartProgress.fromJson pa.toJson = some pa := rfl

theorem decodeParts_map (l : List PartProgress) :
    decodeParts (l.map PartProgress.toJson) = some l := by
  induction l with
  | nil => rfl
  | cons pa rest ih =>
    show (match PartProgress.fromJson pa.toJson,
      decodeParts (rest.map PartProgress.toJson) with
      | some pa2, some l2 => some (pa2 :: l2)
      | _, _ => none) = some (pa :: rest)
    rw [partProgress_fromJson_toJson, ih]

theorem state_fromJson_toJson (S : PartialDownloadState) :
    PartialDownloadState.fromJson S.toJson = some S := by
  obtain ⟨total, pc, parts⟩ := S
  cases total with
  | none =>
    show (match decodeOptNat Json.null, decodeParts (parts.map PartProgress.toJson) with
      | some t, some l => some (PartialDownloadState.mk t pc l)
      | _, _ => none) = some (PartialDownloadState.mk none pc parts)
    rw [decodeParts_map]
    rfl
  | some t =>
    show (match decodeOptNat (Json.num t), decodeParts (parts.map PartProgress.toJson) with
      | some t2, some l => some (PartialDownloadState.mk t2 pc l)
      | _, _ => none) = some (PartialDownloadState.mk (some t) pc parts)
    rw [decodeParts_map]
    rfl

theorem state_path_ne_tmp_path (t : String) :
    partial_state_path t ≠ partial_state_tmp_path t := by
  intro h
  have hl := congrArg String.length h
  rw [partial_state_path, partial_state_tmp_path,
    String.length_append, String.length_append] at hl
  have h6 : (".state" : String).length = 6 := rfl
  have h10 : (".state.tmp" : String).length = 10 := rfl
  omega

/-- Claim C5: for every state with `part_count ≥ 1`, saving to the side-file
of a temp path and loading it back returns `some` of a state equal field by
field to the original. -/
theorem save_load_roundtrip (fs : JsonFs) (temp : String) (S : PartialDownloadState)
    (h : 1 ≤ S.part_count) :
    load_partial_state (save_partial_state fs temp S) temp = some S := by
  unfold load_partial_state save_partial_state
  have hne : partial_state_path temp ≠ partial_state_tmp_path temp :=
    state_path_ne_tmp_path temp
  rw [show (setMap (setMap (setMap fs (partial_state_tmp_path temp) (some S.toJson))
      (partial_state_path temp)
      (setMap fs (partial_state_tmp_path temp) (some S.toJson) (partial_state_tmp_path temp)))
      (partial_state_tmp_path temp) none) (partial_state_path temp) = some S.toJson from by
    unfold setMap
    rw [if_neg hne, if_pos rfl, if_pos rfl]]
  show (match PartialDownloadState.fromJson S.toJson with
    | some S2 => some (PartialDownloadState.mk S2.total (max S2.part_count 1) S2.parts)
    | none => none) = some S
  rw [state_fromJson_toJson]
  show some (PartialDownloadState.mk S.total (max S.part_count 1) S.parts) = some S
  rw [show max S.part_count 1 = S.part_count from by omega]

/-- Witness for `save_load_roundtrip` on an empty file system. -/
theorem save_load_roundtrip_witness :
    load_partial_state
      (save_partial_state (fun _ => none) ".a.tmp"
        ⟨some 10, 2, [⟨0, 4, 1⟩, ⟨5, 9, 0⟩]⟩) ".a.tmp" =
      some ⟨some 10, 2, [⟨0, 4, 1⟩, ⟨5, 9, 0⟩]⟩ :=
  save_load_roundtrip (fun _ => none) ".a.tmp" ⟨some 10, 2, [⟨0, 4, 1⟩, ⟨5, 9, 0⟩]⟩
    (by decide)

/-! ## Claim C6: successful finalization -/

theorem temp_ne_state_path (t : String) : t ≠ partial_state_path t := by
  intro h
  have hl := congrArg String.length h
  rw [partial_state_path, String.length_append] at hl
  have h6 : (".state" : String).length = 6 := rfl
  omega

theorem temp_ne_state_tmp_path (t : String) : t ≠ partial_state_tmp_path t := by
  intro h
  have hl := congrArg String.length h
  rw [partial_state_tmp_path, String.length_append] at hl
  have h10 : (".state.tmp" : String).length = 10 := rfl
  omega

/-- Claim C6: whenever `finalize_temp_file` returns `Ok`: the output file
has exactly the expected size when the total was known (a differing size is
rejected as a size mismatch before reaching `Ok`), the temp file no longer
exists at the temp path, both state side-files are gone, and the temp
registry no longer contains the temp path. -/
theorem finalize_temp_file_spec (st : SysState) (temp output : String)
    (total : Option Nat)
    (h1 : output ≠ temp) (h2 : output ≠ partial_state_path temp)
    (h3 : output ≠ partial_state_tmp_path temp)
    (hok : isOkB (finalize_temp_file st temp output total) = true) :
    (∀ t, total = some t →
      okLenOf (finalize_temp_file st temp output total) = t ∧
      (okStateOf (finalize_temp_file st temp output total)).files output = some t) ∧
    (okStateOf (finalize_temp_file st temp output total)).files temp = none ∧
    (okStateOf (finalize_temp_file st temp output total)).files
      (partial_state_path temp) = none ∧
    (okStateOf (finalize_temp_file st temp output total)).files
      (partial_state_tmp_path temp) = none ∧
    (okStateOf (finalize_temp_file st temp output total)).registry temp = false := by
  set files0 := (if (st.files output).isSome then setMap st.files output none else st.files)
    with hf0
  cases hft : files0 temp with
  | none =>
    have hfin : finalize_temp_file st temp output total =
        Except.error "failed to move temp file into place" := by
      simp only [finalize_temp_file]
      rw [← hf0, hft]
    rw [hfin] at hok
    exact absurd hok (by simp [isOkB])
  | some sz =>
    set F2 := clear_partial_state (setMap (setMap files0 temp none) output (some sz)) temp
      with hF2
    set R1 := setMap st.registry temp false with hR1
    have hout : F2 output = some sz := by
      rw [hF2]
      unfold clear_partial_state setMap
      rw [if_neg h3, if_neg h2, if_pos rfl]
    have htempv : F2 temp = none := by
      rw [hF2]
      unfold clear_partial_state setMap
      rw [if_neg (temp_ne_state_tmp_path temp), if_neg (temp_ne_state_path temp),
        if_neg (Ne.symm h1), if_pos rfl]
    have hstatev : F2 (partial_state_path temp) = none := by
      rw [hF2]
      unfold clear_partial_state setMap
      rw [if_neg (state_path_ne_tmp_path temp), if_pos rfl]
    have hstatetmpv : F2 (partial_state_tmp_path temp) = none := by
      rw [hF2]
      unfold clear_partial_state setMap
      rw [if_pos rfl]
    have hregv : R1 temp = false := by
      rw [hR1]
      unfold setMap
      rw [if_pos rfl]
    have hftraw := hft
    rw [hf0] at hftraw
    have houtraw := hout
    rw [hF2] at houtraw
    cases total with
    | none =>
      have hfin : finalize_temp_file st temp output none =
          Except.ok ({ files := F2, registry := R1 }, sz) := by
        simp only [finalize_temp_file, hftraw, houtraw]
      rw [hfin]
      refine ⟨?_, htempv, hstatev, hstatetmpv, hregv⟩
      intro t ht
      exact absurd ht (by simp)
    | some expected =>
      have hfin0 : finalize_temp_file st temp output (some expected) =
          (if sz ≠ expected then
            (Except.error "downloaded file size mismatch" : Except String (SysState × Nat))
           else Except.ok ({ files := F2, registry := R1 }, sz)) := by
        simp only [finalize_temp_file, hftraw, houtraw]
      by_cases hsz : sz = expected
      · rw [if_neg (by omega)] at hfin0
        rw [hfin0]
        refine ⟨?_, htempv, hstatev, hstatetmpv, hregv⟩
        intro t ht
        have ht2 : expected = t := by injection ht
        subst ht2
        refine ⟨hsz, ?_⟩
        show F2 output = some expected
        rw [hout, hsz]
      · rw [if_pos hsz] at hfin0
        rw [hfin0] at hok
        exact absurd hok (by simp [isOkB])

/-- Witness for `finalize_temp_file_spec`: a 5-byte temp file renamed onto
`f` with expected total 5. -/
theorem finalize_temp_file_spec_witness :
    (okStateOf (finalize_temp_file
      ⟨fun p => if p = ".f.tmp" then some 5 else none, fun p => p = ".f.tmp"⟩
      ".f.tmp" "f" (some 5))).registry ".f.tmp" = false :=
  (finalize_temp_file_spec
    ⟨fun p => if p = ".f.tmp" then some 5 else none, fun p => p = ".f.tmp"⟩
    ".f.tmp" "f" (some 5) (by decide) (by decide) (by decide) (by decide)).2.2.2.2

/-! ## Claim C7: honoring the persisted part count -/

theorem zip_clamp_eq_self :
    ∀ (parts : List PartProgress) (plan : List RangePart),
      layoutMatches parts plan → (∀ pa ∈ parts, pa.downloaded ≤ pa.len) →
      (parts.zip plan).map (fun pr => clampEntry pr.1 pr.2) = parts := by
  intro parts
  induction parts with
  | nil => intro plan _ _; simp
  | cons e rest ih =>
    intro plan hlay hinv
    cases plan with
    | nil => exact absurd hlay (by simp [layoutMatches])
    | cons r prest =>
      unfold layoutMatches at hlay
      simp only [List.map_cons, List.cons.injEq] at hlay
      obtain ⟨hhead, htail⟩ := hlay
      have hs : e.start = r.start := congrArg Prod.fst hhead
      have he : e.endIncl = r.endIncl := congrArg Prod.snd hhead
      simp only [List.zip_cons_cons, List.map_cons]
      have hclamp : clampEntry e r = e := by
        unfold clampEntry
        have hrec : ({ start := r.start, endIncl := r.endIncl, downloaded := e.downloaded } : PartProgress) = e := by
          obtain ⟨es, ee, ed⟩ := e
          simp only at hs he
          rw [hs, he]
        rw [hrec]
        rw [if_neg (Nat.not_lt.mpr (hinv e (List.mem_cons_self _ _)))]
      rw [hclamp, ih prest htail (fun pa hpa => hinv pa (List.mem_cons_of_mem _ hpa))]

/-- Claim C7: when the multi-connection path finds a persisted
`PartialDownloadState` (well-formed per the data model: `part_count ≥ 1`,
`parts.length = part_count`, parts carrying the plan layout for the same
total, `downloaded ≤ len`) whose `part_count` differs from the requested
count, the run reports the mismatch, uses the persisted `part_count` as the
connection count, and keeps every part's downloaded byte offset (the state
is passed on unchanged except for its total). -/
theorem resume_honors_persisted_part_count (S : PartialDownloadState)
    (total req : Nat)
    (hne : S.part_count ≠ req) (hpc : 1 ≤ S.part_count)
    (hlen : S.parts.length = S.part_count)
    (hlay : layoutMatches S.parts (build_range_plan total S.part_count))
    (hinv : partInv S) :
    (plan_multi (some S) total req).reported = true ∧
    (plan_multi (some S) total req).workers = S.part_count ∧
    (plan_multi (some S) total req).state =
      { S with total := some total } := by
  have hmax : max S.part_count 1 = S.part_count := by omega
  unfold plan_multi
  refine ⟨?_, ?_, ?_⟩
  · show decide (S.part_count ≠ req) = true
    exact decide_eq_true hne
  · show max S.part_count 1 = S.part_count
    exact hmax
  · show PartialDownloadState.ensure_layout { S with total := some total } total =
      { S with total := some total }
    unfold PartialDownloadState.ensure_layout
    simp only [hmax]
    rw [if_neg (by simp; omega)]
    have hdroplen : (build_range_plan total S.part_count).length = S.parts.length := by
      have := congrArg List.length hlay
      simp only [List.length_map] at this
      omega
    rw [zip_clamp_eq_self S.parts (build_range_plan total S.part_count) hlay hinv]
    rw [hdroplen, List.drop_length, List.append_nil]

/-- Witness for `resume_honors_persisted_part_count`: a persisted 2-part
state for `total = 10` resumed by a run requesting 4 connections. -/
theorem resume_honors_persisted_part_count_witness :
    (plan_multi (some ⟨some 10, 2, [⟨0, 4, 3⟩, ⟨5, 9, 2⟩]⟩) 10 4).workers = 2 :=
  (resume_honors_persisted_part_count ⟨some 10, 2, [⟨0, 4, 3⟩, ⟨5, 9, 2⟩]⟩ 10 4
    (by decide) (by decide) (by decide) (by unfold layoutMatches; decide)
    (by unfold partInv; decide)).2.1

/-! ## Claim C8: probe failure handling -/

/-- Claim C8 counterexample: when the `HEAD` is refused and the fallback
ranged `GET` also fails, `probe_file` returns the `GET`'s error and
`download_file`'s `probe_file(client, &url)?` propagates it — the download
fails instead of degrading to an unknown-length single-stream download. -/
theorem probe_failure_fails_download :
    probe_file ⟨.error "connection refused", .error "connect error"⟩ =
      .error "connect error" ∧
    download_file_probe_step ⟨.error "connection refused", .error "connect error"⟩
      (fun pr => Except.ok pr) = .error "connect error" :=
  ⟨rfl, rfl⟩

/-- Claim C8 (amended): a `HEAD` failure alone never fails the download —
the probe falls back to the ranged `GET`, and whenever that `GET` yields a
response the probe succeeds and `download_file` proceeds; but when the probe
takes the fallback path and the `GET`'s send fails, `probe_file` returns
that error and `download_file` propagates it to its caller. -/
theorem probe_error_propagation {α : Type} (c : ProbeClient)
    (rest : FileProbe → Except String α) :
    (∀ resp, c.getRangeResult = .ok resp →
      ∃ pr, probe_file c = .ok pr ∧ download_file_probe_step c rest = rest pr) ∧
    (∀ e, headFellBack c → c.getRangeResult = .error e →
      probe_file c = .error e ∧ download_file_probe_step c rest = .error e) := by
  constructor
  · intro resp hget
    have hp : ∃ pr, probe_file c = .ok pr := by
      cases hhead : c.headResult with
      | ok hresp =>
        by_cases hst : isSuccessStatus hresp.status = true
        · exact ⟨_, by simp only [probe_file, hhead]; rw [if_pos hst]⟩
        · exact ⟨_, by simp only [probe_file, probeFallbackGet, hhead, hget]; rw [if_neg hst]⟩
      | error e2 =>
        exact ⟨_, by simp only [probe_file, probeFallbackGet, hhead, hget]; rfl⟩
    obtain ⟨pr, hp⟩ := hp
    refine ⟨pr, hp, ?_⟩
    unfold download_file_probe_step
    rw [hp]
    rfl
  · intro e hfb hget
    have hp : probe_file c = .error e := by
      cases hhead : c.headResult with
      | ok hresp =>
        have hst := hfb hresp hhead
        simp only [probe_file, probeFallbackGet, hhead, hget]
        rw [if_neg (by rw [hst]; simp)]
      | error e2 =>
        simp only [probe_file, probeFallbackGet, hhead, hget]
    refine ⟨hp, ?_⟩
    unfold download_file_probe_step
    rw [hp]
    rfl

/-- Witness for `probe_error_propagation`: a refused `HEAD` with a
successful fallback `GET` still probes successfully. -/
theorem probe_error_propagation_witness :
    ∃ pr, probe_file ⟨.error "refused", .ok ⟨206, ⟨none, none, some "bytes 0-0/77"⟩⟩⟩ =
        .ok pr ∧
      download_file_probe_step ⟨.error "refused", .ok ⟨206, ⟨none, none, some "bytes 0-0/77"⟩⟩⟩
        (fun pr => Except.ok pr) = Except.ok pr :=
  (probe_error_propagation ⟨.error "refused", .ok ⟨206, ⟨none, none, some "bytes 0-0/77"⟩⟩⟩
    (fun pr => Except.ok pr)).1 ⟨206, ⟨none, none, some "bytes 0-0/77"⟩⟩ rfl

/-! ## Claim C9: next_available_path -/

/-- Claim C9: if `p` does not exist, `next_available_path` returns `p`
itself; otherwise it returns the candidate `p'` with the same parent, whose
name is the original stem followed by `-N` with the original `.ext`
re-attached (if any), for the smallest `N ≥ 1` such that `p'` does not
exist. -/
theorem next_available_path_spec (ex : FsPath → Bool) (base : FsPath)
    (h : ∃ n, ex (path_with_suffix base (n + 1)) = false) :
    (ex base = false → next_available_path ex base h = base) ∧
    (ex base = true →
      (next_available_path ex base h).parent = base.parent ∧
      ∃ N, 1 ≤ N ∧
        next_available_path ex base h = path_with_suffix base N ∧
        ex (path_with_suffix base N) = false ∧
        (∀ m, 1 ≤ m → m < N → ex (path_with_suffix base m) = true) ∧
        (next_available_path ex base h).name =
          (stemExt base.name).1 ++ '-' :: Nat.toDigits 10 N ++
            extSuffix (stemExt base.name).2) := by
  constructor
  · intro hfalse
    unfold next_available_path
    rw [if_neg (by rw [hfalse]; simp)]
  · intro htrue
    have hnext : next_available_path ex base h = path_with_suffix base (Nat.find h + 1) := by
      unfold next_available_path
      rw [if_pos htrue]
    refine ⟨by rw [hnext]; rfl, Nat.find h + 1, by omega, hnext, Nat.find_spec h, ?_, ?_⟩
    · intro m hm1 hmN
      have hmin := @Nat.find_min _ _ h (m - 1) (by omega)
      rw [show m - 1 + 1 = m from by omega] at hmin
      cases hex : ex (path_with_suffix base m) with
      | true => rfl
      | false => exact absurd hex hmin
    · rw [hnext]
      rfl

/-- Witness for `next_available_path_spec`: on an empty file system the
base path is returned unchanged. -/
theorem next_available_path_spec_witness :
    next_available_path (fun _ => false) ⟨"", 'a' :: []⟩ ⟨0, rfl⟩ = ⟨"", 'a' :: []⟩ :=
  (next_available_path_spec (fun _ => false) ⟨"", 'a' :: []⟩ ⟨0, rfl⟩).1 rfl

/-! ## Claim C10: part_count is always at least 1 -/

/-- Claim C10: every state entering the engine has `part_count ≥ 1`:
`load_partial_state` clamps a persisted `part_count` of 0 up to 1, and
`PartialDownloadState::new` clamps its argument, so `new _ 0` yields
`part_count = 1`. -/
theorem part_count_always_positive :
    (∀ (fs : JsonFs) (temp : String) (S : PartialDownloadState),
      load_partial_state fs temp = some S → 1 ≤ S.part_count) ∧
    (∀ (total : Option Nat) (pc : Nat),
      1 ≤ (PartialDownloadState.new total pc).part_count) ∧
    (PartialDownloadState.new none 0).part_count = 1 := by
  refine ⟨?_, ?_, by decide⟩
  · intro fs temp S h
    unfold load_partial_state at h
    cases hdoc : fs (partial_state_path temp) with
    | none =>
      rw [hdoc] at h
      exact absurd h (by simp)
    | some doc =>
      rw [hdoc] at h
      have h2 : (match PartialDownloadState.fromJson doc with
        | some S1 => some (PartialDownloadState.mk S1.total (max S1.part_count 1) S1.parts)
        | none => none) = some S := h
      cases hj : PartialDownloadState.fromJson doc with
      | none =>
        rw [hj] at h2
        exact absurd h2 (by simp)
      | some S0 =>
        rw [hj] at h2
        have h3 : PartialDownloadState.mk S0.total (max S0.part_count 1) S0.parts = S := by
          injection h2
        rw [← h3]
        show 1 ≤ max S0.part_count 1
        omega
  · intro total pc
    cases total with
    | some t =>
      show 1 ≤ (PartialDownloadState.rebuild_parts
        { total := some t, part_count := max pc 1, parts := [] } t).part_count
      show 1 ≤ max pc 1
      omega
    | none =>
      show 1 ≤ max pc 1
      omega

/-- Witness for `part_count_always_positive`: loading a persisted state
whose stored `part_count` is 0 yields `part_count = 1`. -/
theorem part_count_always_positive_witness :
    1 ≤ (PartialDownloadState.mk none 1 []).part_count :=
  part_count_always_positive.1
    (fun p => if p = ".a.tmp.state"
      then some (PartialDownloadState.toJson ⟨none, 0, []⟩) else none)
    ".a.tmp" ⟨none, 1, []⟩ (by rfl)

end ServeSpec
